import Mathlib

/-!
Verification development for the GTR2 AI-tuner pipeline
(`matcher.py`, `rcd_handler.py`).

The Python sources are shallowly embedded: strings are Lean `String`s,
Python dicts (insertion-ordered) are association lists with in-place
value update, Python sets that only undergo membership tests and
insertion are lists, and file bytes are `List Nat`.  Character-level
Python primitives (`str.strip`, `str.lower`, `str.split`, substring
containment, `str.find`) are re-implemented structurally below so that
every definition is executable and kernel-reducible.
-/

/-! ## Python string primitives -/

/-- Whitespace characters recognised by Python `str.strip()` / `str.split()`
for the ASCII range. -/
def isWsChar (c : Char) : Bool :=
  decide (c = ' ' ∨ c = '\t' ∨ c = '\n' ∨ c = '\r' ∨ c = '\x0b' ∨ c = '\x0c')

/-- Python `str.strip()` (ASCII model): drop leading and trailing whitespace. -/
def pyStrip (s : String) : String :=
  ⟨((s.data.dropWhile isWsChar).reverse.dropWhile isWsChar).reverse⟩

/-- ASCII model of Python `str.lower()` on one character. -/
def charLower (c : Char) : Char :=
  if 'A' ≤ c ∧ c ≤ 'Z' then Char.ofNat (c.toNat + 32) else c

/-- ASCII model of Python `str.lower()`. -/
def lowerStr (s : String) : String := ⟨s.data.map charLower⟩

/-- Word splitter used by Python `str.split()` (no arguments):
maximal runs of non-whitespace characters. -/
def wordsGo (cur : List Char) : List Char → List (List Char)
  | [] => if cur = [] then [] else [cur.reverse]
  | c :: rest =>
    if isWsChar c then
      if cur = [] then wordsGo [] rest else cur.reverse :: wordsGo [] rest
    else wordsGo (c :: cur) rest

/-- Python `str.split()` with no arguments. -/
def pyWords (s : String) : List String := (wordsGo [] s.data).map (fun l => ⟨l⟩)

/-- Prefix test on character lists. -/
def isPrefixCl : List Char → List Char → Bool
  | [], _ => true
  | _ :: _, [] => false
  | a :: as, b :: bs => decide (a = b) && isPrefixCl as bs

/-- Contiguous-sublist test on character lists. -/
def isInfixCl (n : List Char) : List Char → Bool
  | [] => isPrefixCl n []
  | b :: bs => isPrefixCl n (b :: bs) || isInfixCl n bs

/-- Python `needle in hay` on strings. -/
def strIn (needle hay : String) : Bool := isInfixCl needle.data hay.data

/-- Code-point comparison of characters, as Python compares strings. -/
def charLtB (a b : Char) : Bool := decide (a < b)

/-- Lexicographic strict order on character lists (Python string `<`). -/
def strLtCl : List Char → List Char → Bool
  | [], [] => false
  | [], _ :: _ => true
  | _ :: _, [] => false
  | a :: as, b :: bs => charLtB a b || (decide (a = b) && strLtCl as bs)

/-- Python string `<=`: the order used by `sorted` on string sets. -/
def pyStrLe (a b : String) : Bool := strLtCl a.data b.data || decide (a = b)

/-! ## Matcher embedding (`matcher.py`, class `DriverMatcher`) -/

/-- `_find_best_match` from `matcher.py`: the four-tier, first-hit-wins
matching policy.  Each Python `for`-loop with an early `return` is a
`List.find?`; every tier's loop condition includes
`rcd_driver not in used_rcd_drivers`. -/
def findBestMatch (driverName : String) (rcdDriverNames usedRcdDrivers : List String) :
    Option String :=
  let driverLower := lowerStr driverName
  -- 1. exact match (case-insensitive)
  match rcdDriverNames.find?
      (fun r => decide (lowerStr r = driverLower) && !decide (r ∈ usedRcdDrivers)) with
  | some r => some r
  | none =>
    let anyPartial : Option String :=
      -- 4. any partial match
      rcdDriverNames.find? (fun r => !decide (r ∈ usedRcdDrivers) &&
        (strIn driverLower (lowerStr r) || strIn (lowerStr r) driverLower))
    let driverParts := pyWords driverName
    if driverParts.length > 1 then
      -- 2. last name, then first name
      match rcdDriverNames.find? (fun r => !decide (r ∈ usedRcdDrivers) &&
          strIn (lowerStr (driverParts.getLastD "")) (lowerStr r)) with
      | some r => some r
      | none =>
        match rcdDriverNames.find? (fun r => !decide (r ∈ usedRcdDrivers) &&
            strIn (lowerStr (driverParts.headD "")) (lowerStr r)) with
        | some r => some r
        | none => anyPartial
    else if driverParts.length = 1 then
      -- 3. single word match
      let namePart := lowerStr (driverParts.headD "")
      match rcdDriverNames.find? (fun r => !decide (r ∈ usedRcdDrivers) &&
          strIn namePart (lowerStr r)) with
      | some r => some r
      | none => anyPartial
    else anyPartial

/-- One output row of `match_drivers`: the matched RCD key is stored in the
row's `Driver` field, and `Original_CAR_Name` is present when the `.car`
name differs from the matched key. -/
structure MatchRow where
  driver : String
  originalCarName : Option String
  deriving DecidableEq

/-- The mutable state of the `match_drivers` loop. -/
structure MatchState where
  rows : List MatchRow
  found : List String
  missing : List String
  used : List String
  deriving DecidableEq

def initMatchState : MatchState := ⟨[], [], [], []⟩

/-- One iteration of the `match_drivers` loop body.  The Python
`if matched_driver and matched_driver not in used_rcd_drivers` test models
string truthiness (`matched ≠ ""`) explicitly. -/
def matchStep (rcdNames : List String) (st : MatchState) (driver : String) : MatchState :=
  match findBestMatch driver rcdNames st.used with
  | some matched =>
    if matched ≠ "" ∧ matched ∉ st.used then
      { rows := st.rows ++
          [⟨matched, if driver ≠ matched then some driver else none⟩],
        found := st.found ++ [driver],
        missing := st.missing,
        used := st.used ++ [matched] }
    else if matched ≠ "" ∧ matched ∈ st.used then
      { st with found := st.found ++ [driver] }
    else
      { st with missing := st.missing ++ [driver] }
  | none => { st with missing := st.missing ++ [driver] }

/-- `match_drivers` from `matcher.py`, restricted to the matching state it
threads (rows, found/missing lists, used-set).  `sorted(car_drivers)` is
lexicographic ascending order on strings. -/
def matchDrivers (carDrivers rcdNames : List String) : MatchState :=
  (List.insertionSort (fun a b : String => pyStrLe a b = true) carDrivers).foldl
    (matchStep rcdNames) initMatchState

/-! ## Matcher: spec-side tier policy and helper lemmas -/

/-- First not-yet-used key satisfying `p`, in the keys' iteration order. -/
def firstUnused (p : String → Bool) (keys used : List String) : Option String :=
  keys.find? (fun k => !decide (k ∈ used) && p k)

/-- The tier policy as the specification words it: (1) case-insensitive
exact match against an unused key; (2) for multi-token names, substring
match of the last token, then of the first token; (3) for single-token
names, substring match of that token; (4) bidirectional substring match;
first hit wins. -/
def findBestMatchSpec (name : String) (keys used : List String) : Option String :=
  let nl := lowerStr name
  let toks := pyWords name
  let tier1 := firstUnused (fun k => decide (lowerStr k = nl)) keys used
  let tier23 :=
    if toks.length > 1 then
      (firstUnused (fun k => strIn (lowerStr (toks.getLastD "")) (lowerStr k)) keys used) <|>
        firstUnused (fun k => strIn (lowerStr (toks.headD "")) (lowerStr k)) keys used
    else if toks.length = 1 then
      firstUnused (fun k => strIn (lowerStr (toks.headD "")) (lowerStr k)) keys used
    else none
  let tier4 := firstUnused (fun k => strIn nl (lowerStr k) || strIn (lowerStr k) nl) keys used
  tier1 <|> (tier23 <|> tier4)

/-! ## RCD file model: lines, comments, fields (`rcd_handler.py`) -/

/-- Prefix of a character list before the first `"//"` occurrence
(Python `line[:line.find('//')]`, or the whole line when absent). -/
def stripCommentCl : List Char → List Char
  | [] => []
  | '/' :: '/' :: _ => []
  | c :: cs => c :: stripCommentCl cs

/-- Text before the first `//` comment marker. -/
def stripComment (s : String) : String := ⟨stripCommentCl s.data⟩

/-- `line.split('//')[0].strip()`: comment-stripped, whitespace-trimmed line. -/
def cleanedLine (raw : String) : String := pyStrip (stripComment raw)

/-- Python `s.startswith(c)` for a single character. -/
def startsWithChar (s : String) (c : Char) : Bool :=
  match s.data with
  | [] => false
  | b :: _ => decide (b = c)

/-- Python `line.split('=', 1)`: `some (before, after)` at the first `'='`,
`none` when the line has no `'='`. -/
def splitFirstAtEq : List Char → Option (List Char × List Char)
  | [] => none
  | c :: rest =>
    if c = '=' then some ([], rest)
    else
      match splitFirstAtEq rest with
      | none => none
      | some (a, b) => some (c :: a, b)

/-- Python `content.split('\n')` on character lists. -/
def splitLines : List Char → List (List Char)
  | [] => [[]]
  | c :: rest =>
    if c = '\n' then [] :: splitLines rest
    else
      match splitLines rest with
      | [] => [[c]]
      | l :: ls => (c :: l) :: ls

/-- Python `content.split('\n')`. -/
def pyLines (content : String) : List String :=
  (splitLines content.data).map fun l => ⟨l⟩

/-- The keys of `RCD_FIELD_MAP`: the canonical field set. -/
def rcdFieldList : List String :=
  ["Abbreviation", "Nationality", "NatAbbrev", "StartsDry", "StartsWet",
   "StartStalls", "QualifyingAbility", "RaceAbility", "Consistency",
   "RainAbility", "Passing", "Crash", "Recovery", "CompletedLaps%",
   "Script", "TrackAggression", "CorneringAdd", "CorneringMult",
   "TCGripThreshold", "TCThrottleFract", "TCResponse", "MinRacingSkill",
   "Composure", "RaceColdBrainMin", "RaceColdBrainTime", "QualColdBrainMin",
   "QualColdBrainTime"]

/-- Python dict assignment `d[k] = v` on an insertion-ordered association
list: update in place if the key exists, else append. -/
def dictSet {α : Type} : List (String × α) → String → α → List (String × α)
  | [], k, v => [(k, v)]
  | (k', v') :: rest, k, v =>
    if k' = k then (k, v) :: rest else (k', v') :: dictSet rest k v

/-- Python dict lookup `d.get(k)`. -/
def dictGet {α : Type} : List (String × α) → String → Option α
  | [], _ => none
  | (k', v') :: rest, k => if k' = k then some v' else dictGet rest k

/-- Key list of an association list, in iteration order. -/
def keysOf {α : Type} (d : List (String × α)) : List String := d.map Prod.fst

/-! ## Fast RCD parser (`RcdHandler._parse_single_rcd_fast`) -/

/-- Parser state: the driver dict built so far, and the most recently seen
header (`current_driver`). -/
structure ParseState where
  dict : List (String × List (String × String))
  current : Option String

/-- One iteration of the `_parse_single_rcd_fast` line loop. -/
def parseLine (st : ParseState) (raw : String) : ParseState :=
  let line := cleanedLine raw
  if line = "" then st
  else if '=' ∉ line.data ∧ startsWithChar line '{' = false
      ∧ startsWithChar line '}' = false then
    { dict := if line ≠ "" then dictSet st.dict line [("Driver", line)] else st.dict,
      current := some line }
  else
    match st.current with
    | some cur =>
      if cur ≠ "" then
        match splitFirstAtEq line.data with
        | some (kp, vp) =>
          let key := pyStrip ⟨kp⟩
          if key ∈ rcdFieldList then
            let newRec := dictSet ((dictGet st.dict cur).getD []) key
              (pyStrip (stripComment ⟨vp⟩))
            { st with dict := dictSet st.dict cur newRec }
          else st
        | none => st
      else st
    | none => st

/-- `_parse_single_rcd_fast` on the decoded file content. -/
def parseSingleRcdFast (content : String) : List (String × List (String × String)) :=
  if content = "" then []
  else ((pyLines content).foldl parseLine ⟨[], none⟩).dict

/-- Header-line test of the parser grammar: after comment-stripping and
trimming, a non-blank line with no `'='` that does not start with a brace. -/
def isHeaderLine (raw : String) : Bool :=
  let l := cleanedLine raw
  decide (l ≠ "" ∧ '=' ∉ l.data ∧ startsWithChar l '{' = false
    ∧ startsWithChar l '}' = false)

/-- The entity name of a header line. -/
def headerName (raw : String) : Option String :=
  if isHeaderLine raw then some (cleanedLine raw) else none

/-- Header names of a line list, in file order. -/
def headersOfLines (ls : List String) : List String := ls.filterMap headerName

/-- The header lines of an input text. -/
def headerLinesOf (content : String) : List String := headersOfLines (pyLines content)

/-- The trimmed key of a field line (any line whose cleaned text contains
`'='`). -/
def lineFieldKey (raw : String) : Option String :=
  match splitFirstAtEq (cleanedLine raw).data with
  | some (kp, _) => some (pyStrip ⟨kp⟩)
  | none => none

/-- Field keys occurring before the first header line of a line list. -/
def prefixFieldKeys (ls : List String) : List String :=
  (ls.takeWhile fun raw => !isHeaderLine raw).filterMap lineFieldKey

/-- The block of the header `h`: the lines after the first header line named
`h`, up to the next header line. -/
def blockOfLines (ls : List String) (h : String) : List String :=
  match ls.dropWhile (fun raw => !decide (headerName raw = some h)) with
  | [] => []
  | _ :: rest => rest.takeWhile fun raw => !isHeaderLine raw

/-- Field keys appearing verbatim in the block of header `h`. -/
def blockFieldKeys (ls : List String) (h : String) : List String :=
  (blockOfLines ls h).filterMap lineFieldKey

/-- Where every key of every parsed record can come from, relative to a
parser start state `st` and remaining input `ls`: it was already in `st`'s
dict, or it is a canonical field key from a field line preceding the first
header of `ls` (attributed to `st.current`), or it is the synthesized
`"Driver"` entry of a header of `ls`, or it is a canonical field key from
the block of a header of `ls`. -/
def ParseOrigins (ls : List String) (st : ParseState)
    (d' : List (String × List (String × String))) : Prop :=
  ∀ p ∈ d', ∀ kv ∈ p.2,
    (∃ r₀, (p.1, r₀) ∈ st.dict ∧ kv.1 ∈ keysOf r₀)
    ∨ (st.current = some p.1 ∧ kv.1 ∈ rcdFieldList ∧ kv.1 ∈ prefixFieldKeys ls)
    ∨ (kv.1 = "Driver" ∧ p.1 ∈ headersOfLines ls)
    ∨ (p.1 ∈ headersOfLines ls ∧ kv.1 ∈ rcdFieldList ∧ kv.1 ∈ blockFieldKeys ls p.1)

/-! ## Record updater (`RcdHandler._update_single_rcd` and helpers) -/

/-- Suffix of a character list from the first `"//"` occurrence on
(Python `value_part[value_part.index('//'):]`), or `[]` when there is no
comment. -/
def commentSuffixCl : List Char → List Char
  | [] => []
  | '/' :: '/' :: rest => '/' :: '/' :: rest
  | _ :: rest => commentSuffixCl rest

/-- `_update_line_if_needed`: on a field line whose trimmed key is in
`fieldnames` and whose planned value is non-empty, emit the leading
indentation of the key part, the trimmed key, `'='`, the new value, and the
`//`-comment suffix of the value part; otherwise return the line unchanged. -/
def updateLineIfNeeded (line : String) (driverData : List (String × String))
    (fieldnames : List String) : String :=
  match splitFirstAtEq line.data with
  | none => line
  | some (kp, rest) =>
    let key := pyStrip ⟨kp⟩
    if key ∈ fieldnames then
      let newValue := (dictGet driverData key).getD ""
      if newValue ≠ "" then
        ⟨kp.takeWhile isWsChar⟩ ++ key ++ "=" ++ newValue ++ ⟨commentSuffixCl rest⟩
      else line
    else line

/-- Python `readlines` followed by `rstrip('\n')` per line, on characters:
split at newlines and drop the final empty piece of a newline-terminated
file. -/
def clStrippedLines (l : List Char) : List (List Char) :=
  let ps := splitLines l
  if ps.getLastD [] = [] then ps.dropLast else ps

/-- The newline-stripped lines `_update_single_rcd` iterates over. -/
def readStrippedLines (content : String) : List String :=
  (clStrippedLines content.data).map fun l => ⟨l⟩

/-- Newline-joined concatenation on characters. -/
def clJoinNl : List (List Char) → List Char
  | [] => []
  | l :: ls => l ++ '\n' :: clJoinNl ls

/-- Concatenation performed by `writelines`: every updated line was given a
trailing newline, including the last. -/
def concatLinesNl : List String → String
  | [] => ""
  | l :: ls => l ++ "\n" ++ concatLinesNl ls

/-- State of the `_update_single_rcd` line scan. -/
structure UpdState where
  out : List String
  inTarget : Bool
  depth : Int

def initUpdState : UpdState := ⟨[], false, 0⟩

/-- One iteration of the `_update_single_rcd` loop: detect the start of the
target driver block, track brace depth, rewrite eligible field lines
(`'=' present and depth > 0`), and leave the block when the depth returns
to zero on a line containing `'}'`. -/
def updLineStep (driverName : String) (driverData : List (String × String))
    (fieldnames : List String) (st : UpdState) (original : String) : UpdState :=
  let st1 : UpdState :=
    if st.inTarget = false ∧ cleanedLine original = driverName then
      ⟨st.out, true, 0⟩
    else st
  if st1.inTarget then
    let depth2 := st1.depth + (original.data.count '{' : Int)
      - (original.data.count '}' : Int)
    let outLine :=
      if '=' ∈ original.data ∧ depth2 > 0 then
        updateLineIfNeeded original driverData fieldnames
      else original
    let inT2 : Bool := if depth2 = 0 ∧ '}' ∈ original.data then false else true
    ⟨st1.out ++ [outLine], inT2, depth2⟩
  else ⟨st1.out ++ [original], st1.inTarget, st1.depth⟩

/-- The rewritten lines produced by `_update_single_rcd`. -/
def updOutLines (content driverName : String) (driverData : List (String × String))
    (fieldnames : List String) : List String :=
  ((readStrippedLines content).foldl (updLineStep driverName driverData fieldnames)
    initUpdState).out

/-- `_update_single_rcd` as a content transformer: read the lines, rewrite
the target block, and write every line back newline-terminated. -/
def updateSingleRcd (content driverName : String) (driverData : List (String × String))
    (fieldnames : List String) : String :=
  concatLinesNl (updOutLines content driverName driverData fieldnames)

/-- A line already in the updater's rewritten form for a plan: if its
trimmed key is targeted with a non-empty value, the line is literally
indentation, key, `'='`, planned value and `//`-comment suffix, with no
other whitespace. -/
def normalFormLine (driverData : List (String × String)) (fieldnames : List String)
    (line : String) : Bool :=
  match splitFirstAtEq line.data with
  | none => true
  | some (kp, rest) =>
    let key := pyStrip ⟨kp⟩
    if key ∈ fieldnames then
      match dictGet driverData key with
      | none => true
      | some v =>
        if v = "" then true
        else decide (line = ⟨kp.takeWhile isWsChar⟩ ++ key ++ "=" ++ v
          ++ ⟨commentSuffixCl rest⟩)
    else true

/-! ## Backup step (`RcdHandler._backup_if_needed` inside `update_rcd_files`) -/

/-- Outcome model of `_backup_if_needed`.  The filesystem is abstracted into
oracle inputs: whether a relative backup path could be determined, whether
the backup copy already exists, and whether the copy call succeeds (an
exception inside the helper is caught and turned into `false`). -/
def backupIfNeeded (relPath : Option String) (alreadyExists copyOk : Bool) : Bool :=
  match relPath with
  | none => false
  | some _ => if alreadyExists then true else copyOk

/-- What `update_rcd_files` does for one driver whose file was found. -/
structure DriverUpdateOutcome where
  backedUp : Bool
  newContent : String
  success : Bool
  deriving DecidableEq

/-- The per-driver body of `update_rcd_files` once the owning file (with
content `content`) has been found: optional best-effort backup whose result
is discarded, then the unconditional rewrite via `_update_single_rcd`. -/
def processFoundDriver (backupPath relPath : Option String)
    (alreadyExists copyOk : Bool) (content driverName : String)
    (driverData : List (String × String)) (validFieldnames : List String) :
    DriverUpdateOutcome :=
  let b := match backupPath with
    | some _ => backupIfNeeded relPath alreadyExists copyOk
    | none => false
  ⟨b, updateSingleRcd content driverName driverData validFieldnames, true⟩

/-! ## UTF-8 byte model (`open(..., encoding='utf-8', errors='ignore')`) -/

/-- UTF-8 continuation byte test. -/
def isContByte (b : Nat) : Bool := decide (0x80 ≤ b ∧ b ≤ 0xBF)

/-- Admissible second byte of a multi-byte UTF-8 sequence headed by `b`. -/
def validSecondByte (b b2 : Nat) : Bool :=
  if b = 0xE0 then decide (0xA0 ≤ b2 ∧ b2 ≤ 0xBF)
  else if b = 0xED then decide (0x80 ≤ b2 ∧ b2 ≤ 0x9F)
  else if b = 0xF0 then decide (0x90 ≤ b2 ∧ b2 ≤ 0xBF)
  else if b = 0xF4 then decide (0x80 ≤ b2 ∧ b2 ≤ 0x8F)
  else isContByte b2

/-- UTF-8 encoding of one scalar value (as in Python `str.encode('utf-8')`). -/
def utf8EncodeChar (c : Char) : List Nat :=
  let n := c.toNat
  if n < 0x80 then [n]
  else if n < 0x800 then [0xC0 + n / 0x40, 0x80 + n % 0x40]
  else if n < 0x10000 then
    [0xE0 + n / 0x1000, 0x80 + (n / 0x40) % 0x40, 0x80 + n % 0x40]
  else
    [0xF0 + n / 0x40000, 0x80 + (n / 0x1000) % 0x40, 0x80 + (n / 0x40) % 0x40,
      0x80 + n % 0x40]

/-- UTF-8 encoding of a string. -/
def utf8Encode (s : String) : List Nat := (s.data.map utf8EncodeChar).flatten

/-- Wellformedness of a byte sequence as UTF-8. -/
def utf8Valid : List Nat → Bool
  | [] => true
  | b :: rest =>
    if b < 0x80 then utf8Valid rest
    else if 0xC2 ≤ b ∧ b ≤ 0xDF then
      match rest with
      | [] => false
      | b2 :: rest2 => if isContByte b2 = true then utf8Valid rest2 else false
    else if 0xE0 ≤ b ∧ b ≤ 0xEF then
      match rest with
      | b2 :: b3 :: rest3 =>
        if validSecondByte b b2 = true ∧ isContByte b3 = true then utf8Valid rest3
        else false
      | _ => false
    else if 0xF0 ≤ b ∧ b ≤ 0xF4 then
      match rest with
      | b2 :: b3 :: b4 :: rest4 =>
        if validSecondByte b b2 = true ∧ isContByte b3 = true ∧ isContByte b4 = true then
          utf8Valid rest4
        else false
      | _ => false
    else false

/-- Fuel-driven worker for UTF-8 decoding with invalid subparts skipped;
every step consumes at least one byte, so `fuel = length` suffices. -/
def utf8DecodeIgnoreFuel : Nat → List Nat → List Char
  | 0, _ => []
  | _ + 1, [] => []
  | fuel + 1, b :: rest =>
    if b < 0x80 then Char.ofNat b :: utf8DecodeIgnoreFuel fuel rest
    else if 0xC2 ≤ b ∧ b ≤ 0xDF then
      match rest with
      | [] => []
      | b2 :: rest2 =>
        if isContByte b2 = true then
          Char.ofNat ((b - 0xC0) * 0x40 + (b2 - 0x80)) :: utf8DecodeIgnoreFuel fuel rest2
        else utf8DecodeIgnoreFuel fuel (b2 :: rest2)
    else if 0xE0 ≤ b ∧ b ≤ 0xEF then
      match rest with
      | [] => []
      | b2 :: rest2 =>
        if validSecondByte b b2 = true then
          match rest2 with
          | [] => []
          | b3 :: rest3 =>
            if isContByte b3 = true then
              Char.ofNat ((b - 0xE0) * 0x1000 + (b2 - 0x80) * 0x40 + (b3 - 0x80))
                :: utf8DecodeIgnoreFuel fuel rest3
            else utf8DecodeIgnoreFuel fuel (b3 :: rest3)
        else utf8DecodeIgnoreFuel fuel (b2 :: rest2)
    else if 0xF0 ≤ b ∧ b ≤ 0xF4 then
      match rest with
      | [] => []
      | b2 :: rest2 =>
        if validSecondByte b b2 = true then
          match rest2 with
          | [] => []
          | b3 :: rest3 =>
            if isContByte b3 = true then
              match rest3 with
              | [] => []
              | b4 :: rest4 =>
                if isContByte b4 = true then
                  Char.ofNat ((b - 0xF0) * 0x40000 + (b2 - 0x80) * 0x1000
                    + (b3 - 0x80) * 0x40 + (b4 - 0x80)) :: utf8DecodeIgnoreFuel fuel rest4
                else utf8DecodeIgnoreFuel fuel (b4 :: rest4)
            else utf8DecodeIgnoreFuel fuel (b3 :: rest3)
        else utf8DecodeIgnoreFuel fuel (b2 :: rest2)
    else utf8DecodeIgnoreFuel fuel rest

/-- Python `bytes.decode('utf-8', errors='ignore')`: decode scalar values,
skipping maximal invalid subparts. -/
def utf8DecodeIgnore (bs : List Nat) : List Char :=
  utf8DecodeIgnoreFuel bs.length bs

/-- `_update_single_rcd` at byte level: the file bytes are decoded with
undecodable bytes ignored, the text is rewritten, and the result is written
back UTF-8 encoded. -/
def updateSingleRcdBytes (bytes : List Nat) (driverName : String)
    (driverData : List (String × String)) (fieldnames : List String) : List Nat :=
  utf8Encode (updateSingleRcd ⟨utf8DecodeIgnore bytes⟩ driverName driverData fieldnames)

theorem find?_unused_comm (ns used : List String) (q : String → Bool) :
    ns.find? (fun r => q r && !decide (r ∈ used))
      = ns.find? fun r => !decide (r ∈ used) && q r := by
  congr 1
  funext r
  exact Bool.and_comm _ _

theorem findBestMatch_eq_spec (d : String) (ns used : List String) :
    findBestMatch d ns used = findBestMatchSpec d ns used := by
  simp only [findBestMatch, findBestMatchSpec, firstUnused]
  rw [find?_unused_comm ns used fun r => decide (lowerStr r = lowerStr d)]
  rcases hfind : ns.find? (fun r => !decide (r ∈ used) && decide (lowerStr r = lowerStr d))
    with _ | r
  · simp only [hfind, Option.none_orElse]
    by_cases h1 : (pyWords d).length > 1
    · simp only [if_pos h1]
      rcases h2 : ns.find? (fun r => !decide (r ∈ used) &&
          strIn (lowerStr ((pyWords d).getLastD "")) (lowerStr r)) with _ | r
      · simp only [h2, Option.none_orElse]
        rcases h3 : ns.find? (fun r => !decide (r ∈ used) &&
            strIn (lowerStr ((pyWords d).headD "")) (lowerStr r)) with _ | r
        · simp only [h3, Option.none_orElse]
        · simp only [h3, Option.some_orElse]
      · simp only [h2, Option.some_orElse]
    · simp only [if_neg h1]
      by_cases h2 : (pyWords d).length = 1
      · simp only [if_pos h2]
        rcases h3 : ns.find? (fun r => !decide (r ∈ used) &&
            strIn (lowerStr ((pyWords d).headD "")) (lowerStr r)) with _ | r
        · simp only [h3, Option.none_orElse]
        · simp only [h3, Option.some_orElse]
      · simp only [if_neg h2, Option.none_orElse]
  · simp only [hfind, Option.some_orElse]

/-- Every tier of `_find_best_match` filters candidates on the used-set,
so a returned key is never in the used-set that was passed in. -/
theorem findBestMatch_not_used (d : String) (ns used : List String) (m : String)
    (h : findBestMatch d ns used = some m) : m ∉ used := by
  have key : ∀ (p : String → Bool), (∀ r, p r = true → r ∉ used) →
      ∀ o : Option String, ns.find? p = o → o = some m → m ∉ used := by
    intro p hp o ho hsome
    subst hsome
    exact hp m (List.find?_some ho)
  have hmem : ∀ q : String → Bool, ∀ r : String,
      (!decide (r ∈ used) && q r) = true → r ∉ used := by
    intro q r hr
    have := (Bool.and_eq_true _ _).mp hr |>.1
    simpa using this
  simp only [findBestMatch] at h
  split at h
  · rename_i r heq
    refine key _ ?_ _ heq h
    intro r' hr'
    have := (Bool.and_eq_true _ _).mp hr' |>.2
    simpa using this
  · split at h
    · split at h
      · rename_i r heq
        exact key _ (hmem _) _ heq h
      · split at h
        · rename_i r heq
          exact key _ (hmem _) _ heq h
        · exact key _ (hmem _) _ rfl h
    · split at h
      · split at h
        · rename_i r heq
          exact key _ (hmem _) _ heq h
        · exact key _ (hmem _) _ rfl h
      · exact key _ (hmem _) _ rfl h

theorem matchStep_rows_used (rcds : List String) (st : MatchState) (d : String)
    (hrows : st.rows.map MatchRow.driver = st.used) (hnd : st.used.Nodup) :
    ((matchStep rcds st d).rows.map MatchRow.driver = (matchStep rcds st d).used)
      ∧ (matchStep rcds st d).used.Nodup := by
  unfold matchStep
  cases hm : findBestMatch d rcds st.used with
  | none => exact ⟨hrows, hnd⟩
  | some m =>
    dsimp only
    by_cases h1 : m ≠ "" ∧ m ∉ st.used
    · rw [if_pos h1]
      constructor
      · simpa using hrows
      · refine List.Nodup.append hnd (List.nodup_singleton m) ?_
        intro x hx hx'
        have : x = m := by simpa using hx'
        exact h1.2 (this ▸ hx)
    · rw [if_neg h1]
      by_cases h2 : m ≠ "" ∧ m ∈ st.used
      · rw [if_pos h2]; exact ⟨hrows, hnd⟩
      · rw [if_neg h2]; exact ⟨hrows, hnd⟩

theorem matchFold_invariant (rcds : List String) :
    ∀ (ls : List String) (st : MatchState),
      st.rows.map MatchRow.driver = st.used → st.used.Nodup →
      ((ls.foldl (matchStep rcds) st).rows.map MatchRow.driver
          = (ls.foldl (matchStep rcds) st).used)
        ∧ (ls.foldl (matchStep rcds) st).used.Nodup
  | [], _, h1, h2 => ⟨h1, h2⟩
  | d :: ls, st, h1, h2 => by
    have step := matchStep_rows_used rcds st d h1 h2
    exact matchFold_invariant rcds ls (matchStep rcds st d) step.1 step.2

theorem matchStep_found_rows (rcds : List String) (st : MatchState) (d : String)
    (h : st.found.length = st.rows.length) :
    (matchStep rcds st d).found.length = (matchStep rcds st d).rows.length := by
  unfold matchStep
  cases hm : findBestMatch d rcds st.used with
  | none => exact h
  | some m =>
    dsimp only
    by_cases h1 : m ≠ "" ∧ m ∉ st.used
    · rw [if_pos h1]; simp [h]
    · rw [if_neg h1]
      by_cases h2 : m ≠ "" ∧ m ∈ st.used
      · exact absurd h2.2 (findBestMatch_not_used d rcds st.used m hm)
      · rw [if_neg h2]; exact h

theorem matchFold_found_rows (rcds : List String) :
    ∀ (ls : List String) (st : MatchState),
      st.found.length = st.rows.length →
      (ls.foldl (matchStep rcds) st).found.length
        = (ls.foldl (matchStep rcds) st).rows.length
  | [], _, h => h
  | d :: ls, st, h =>
    matchFold_found_rows rcds ls (matchStep rcds st d) (matchStep_found_rows rcds st d h)

theorem strLtCl_total : ∀ as bs : List Char,
    strLtCl as bs = true ∨ strLtCl bs as = true ∨ as = bs
  | [], [] => Or.inr (Or.inr rfl)
  | [], _ :: _ => Or.inl rfl
  | _ :: _, [] => Or.inr (Or.inl rfl)
  | a :: as, b :: bs => by
    rcases lt_trichotomy a b with h | h | h
    · left; simp [strLtCl, charLtB, h]
    · subst h
      rcases strLtCl_total as bs with h' | h' | h'
      · left; simp [strLtCl, charLtB, h']
      · right; left; simp [strLtCl, charLtB, h']
      · right; right; rw [h']
    · right; left; simp [strLtCl, charLtB, h]

theorem strLtCl_trans (as : List Char) : ∀ bs cs : List Char,
    strLtCl as bs = true → strLtCl bs cs = true → strLtCl as cs = true := by
  induction as with
  | nil =>
    intro bs cs h1 h2
    cases bs with
    | nil => simp [strLtCl] at h1
    | cons b bs =>
      cases cs with
      | nil => simp [strLtCl] at h2
      | cons c cs => simp [strLtCl]
  | cons a as ih =>
    intro bs cs h1 h2
    cases bs with
    | nil => simp [strLtCl] at h1
    | cons b bs =>
      cases cs with
      | nil => simp [strLtCl] at h2
      | cons c cs =>
        simp only [strLtCl, charLtB, Bool.or_eq_true, Bool.and_eq_true,
          decide_eq_true_eq] at h1 h2 ⊢
        rcases h1 with h1 | ⟨hab, h1⟩
        · rcases h2 with h2 | ⟨hbc, h2⟩
          · exact Or.inl (lt_trans h1 h2)
          · exact Or.inl (hbc ▸ h1)
        · rcases h2 with h2 | ⟨hbc, h2⟩
          · exact Or.inl (hab ▸ h2)
          · exact Or.inr ⟨hab.trans hbc, ih bs cs h1 h2⟩

instance : IsTotal String (fun a b : String => pyStrLe a b = true) := by
  constructor
  intro a b
  rcases strLtCl_total a.data b.data with h | h | h
  · exact Or.inl (by simp [pyStrLe, h])
  · exact Or.inr (by simp [pyStrLe, h])
  · have hab : a = b := by
      cases a; cases b
      exact congrArg String.mk h
    exact Or.inl (by simp [pyStrLe, hab])

instance : IsTrans String (fun a b : String => pyStrLe a b = true) := by
  constructor
  intro a b c h1 h2
  simp only [pyStrLe, Bool.or_eq_true, decide_eq_true_eq] at h1 h2 ⊢
  rcases h1 with h1 | h1
  · rcases h2 with h2 | h2
    · exact Or.inl (strLtCl_trans _ _ _ h1 h2)
    · exact Or.inl (h2 ▸ h1)
  · subst h1
    exact h2

/-! ## Matcher claims -/

/-- C1: `match_drivers` processes the extracted names in ascending
lexicographic order (it folds the per-name step over a sorted permutation
of its input), `_find_best_match` implements exactly the specification's
ordered tier policy (`findBestMatchSpec`), and on records
`["J. Smith", "Smith, John"]` the extracted name `"John Smith"` fails the
exact tier and is bound by the last-token tier to the first record in
iteration order containing `"smith"`, namely `"J. Smith"`. -/
theorem matcher_tier_policy_c1 :
    (∀ cars rcds : List String,
      matchDrivers cars rcds =
        (List.insertionSort (fun a b : String => pyStrLe a b = true) cars).foldl
          (matchStep rcds) initMatchState
      ∧ (List.insertionSort (fun a b : String => pyStrLe a b = true) cars).Sorted
          (fun a b : String => pyStrLe a b = true)
      ∧ (List.insertionSort (fun a b : String => pyStrLe a b = true) cars).Perm cars)
    ∧ (∀ (name : String) (keys used : List String),
        findBestMatch name keys used = findBestMatchSpec name keys used)
    ∧ findBestMatch "John Smith" ["J. Smith", "Smith, John"] [] = some "J. Smith" := by
  refine ⟨fun cars rcds => ⟨rfl, ?_, ?_⟩, findBestMatch_eq_spec, by decide⟩
  · exact List.sorted_insertionSort _ cars
  · exact List.perm_insertionSort _ cars

/-- C2: in every run of the matcher, the keys bound to output rows are
exactly the used-set, and the used-set has no duplicates: no two distinct
extracted names are ever bound to the same record key, and every key added
to the used-set belongs to exactly one output row. -/
theorem matcher_used_set_invariant_c2 (cars rcds : List String) :
    (matchDrivers cars rcds).rows.map MatchRow.driver = (matchDrivers cars rcds).used
    ∧ (matchDrivers cars rcds).used.Nodup := by
  unfold matchDrivers
  exact matchFold_invariant rcds _ initMatchState rfl List.nodup_nil

/-- C6 counterexample: (i) a tier whose first candidate in iteration order
is already used keeps scanning the same tier and can still bind a later
unused key of that tier (`"B Smith"` is bound by the last-token tier even
though its first candidate `"A Smith"` is used), rather than moving to the
next rule path; (ii) a later name whose only possible candidate is already
used (`"Bo Smith"` when `"Smith"` is taken by `"Ann Smith"`) is recorded as
missing, not counted as found: the found statistic does not exceed the
number of output rows. -/
theorem matcher_c6_counterexample :
    findBestMatch "John Smith" ["A Smith", "B Smith"] ["A Smith"] = some "B Smith"
    ∧ (matchDrivers ["Ann Smith", "Bo Smith"] ["Smith"]).found = ["Ann Smith"]
    ∧ (matchDrivers ["Ann Smith", "Bo Smith"] ["Smith"]).missing = ["Bo Smith"]
    ∧ (matchDrivers ["Ann Smith", "Bo Smith"] ["Smith"]).rows.length = 1 :=
  ⟨by decide, by decide, by decide, by decide⟩

/-- C6 amended: a used candidate key is skipped inside its tier and the scan
continues with the remaining keys of the same tier; only when no unused key
satisfies the tier is the next rule path tried.  Because every tier filters
on the used-set, a later extracted name whose only possible candidate is
already used obtains no match at all: it is recorded as missing, and the
found statistic always equals the number of output rows. -/
theorem matcher_c6_amended :
    findBestMatch "John Smith" ["A Smith", "B Smith"] ["A Smith"] = some "B Smith"
    ∧ (∀ cars rcds : List String,
        (matchDrivers cars rcds).found.length = (matchDrivers cars rcds).rows.length)
    ∧ (matchDrivers ["Ann Smith", "Bo Smith"] ["Smith"]).missing = ["Bo Smith"] := by
  refine ⟨by decide, fun cars rcds => ?_, by decide⟩
  unfold matchDrivers
  exact matchFold_found_rows rcds _ initMatchState rfl

/-- C9: `_find_best_match` returns either `None` or a key not in the
used-set passed to it (every tier filters candidates on the used-set), and
consequently the `match_drivers` branch handling a returned match that is
already used is unreachable: whenever the found list grows, an output row
is produced as well. -/
theorem matcher_returns_unused_c9 :
    (∀ (d : String) (ns used : List String) (m : String),
      findBestMatch d ns used = some m → m ∉ used)
    ∧ (∀ (rcds : List String) (st : MatchState) (d : String),
        (matchStep rcds st d).found.length = st.found.length + 1 →
        (matchStep rcds st d).rows.length = st.rows.length + 1) := by
  constructor
  · exact findBestMatch_not_used
  · intro rcds st d h
    unfold matchStep at h ⊢
    cases hm : findBestMatch d rcds st.used with
    | none =>
      rw [hm] at h
      simp at h
    | some m =>
      rw [hm] at h
      dsimp only at h ⊢
      by_cases h1 : m ≠ "" ∧ m ∉ st.used
      · rw [if_pos h1]; simp
      · rw [if_neg h1] at h ⊢
        by_cases h2 : m ≠ "" ∧ m ∈ st.used
        · exact absurd h2.2 (findBestMatch_not_used d rcds st.used m hm)
        · rw [if_neg h2] at h
          simp at h

/-- C9 witness: concrete instances of both parts of the unreachability
property. -/
theorem matcher_returns_unused_c9_witness :
    ("J. Smith" ∉ ([] : List String))
    ∧ (matchStep ["Smith"] initMatchState "Ann Smith").rows.length
        = initMatchState.rows.length + 1 :=
  ⟨matcher_returns_unused_c9.1 "John Smith" ["J. Smith"] [] "J. Smith" (by decide),
   matcher_returns_unused_c9.2 ["Smith"] initMatchState "Ann Smith" (by decide)⟩

/-! ## Dictionary lemmas -/

theorem mem_keysOf {α : Type} (d : List (String × α)) (k : String) :
    k ∈ keysOf d ↔ ∃ r, (k, r) ∈ d := by
  constructor
  · intro h
    rcases List.mem_map.mp h with ⟨p, hp, hpk⟩
    refine ⟨p.2, ?_⟩
    rw [← hpk]
    simpa using hp
  · rintro ⟨r, hr⟩
    exact List.mem_map.mpr ⟨(k, r), hr, rfl⟩

theorem keysOf_cons {α : Type} (k' : String) (v' : α) (rest : List (String × α)) :
    keysOf ((k', v') :: rest) = k' :: keysOf rest := rfl

theorem keysOf_dictSet_of_mem {α : Type} (d : List (String × α)) (k : String) (v : α)
    (h : k ∈ keysOf d) : keysOf (dictSet d k v) = keysOf d := by
  induction d with
  | nil => simp [keysOf] at h
  | cons p rest ih =>
    obtain ⟨k', v'⟩ := p
    by_cases hk : k' = k
    · subst hk
      simp [dictSet, keysOf]
    · have hmem : k ∈ keysOf rest := by
        rw [keysOf_cons] at h
        rcases List.mem_cons.mp h with h' | h'
        · exact absurd h'.symm hk
        · exact h'
      rw [show dictSet ((k', v') :: rest) k v = (k', v') :: dictSet rest k v by
        simp [dictSet, hk]]
      rw [keysOf_cons, keysOf_cons, ih hmem]

theorem keysOf_dictSet_of_not_mem {α : Type} (d : List (String × α)) (k : String) (v : α)
    (h : k ∉ keysOf d) : keysOf (dictSet d k v) = keysOf d ++ [k] := by
  induction d with
  | nil => simp [dictSet, keysOf]
  | cons p rest ih =>
    obtain ⟨k', v'⟩ := p
    have hk : k' ≠ k := by
      intro hEq
      exact h (by rw [keysOf_cons, hEq]; exact List.mem_cons_self _ _)
    have hrest : k ∉ keysOf rest := by
      intro hEq
      exact h (by rw [keysOf_cons]; exact List.mem_cons_of_mem _ hEq)
    rw [show dictSet ((k', v') :: rest) k v = (k', v') :: dictSet rest k v by
      simp [dictSet, hk]]
    rw [keysOf_cons, keysOf_cons, ih hrest, List.cons_append]

theorem mem_keysOf_dictSet {α : Type} (d : List (String × α)) (k : String) (v : α)
    (a : String) (h : a ∈ keysOf (dictSet d k v)) : a = k ∨ a ∈ keysOf d := by
  induction d with
  | nil =>
    simp only [dictSet, keysOf, List.map_cons, List.map_nil] at h
    exact Or.inl (by simpa using h)
  | cons p rest ih =>
    obtain ⟨k', v'⟩ := p
    by_cases hk : k' = k
    · subst hk
      rw [show dictSet ((k', v') :: rest) k' v = (k', v) :: rest by simp [dictSet]] at h
      rw [keysOf_cons] at h
      rcases List.mem_cons.mp h with h' | h'
      · exact Or.inl h'
      · exact Or.inr (by rw [keysOf_cons]; exact List.mem_cons_of_mem _ h')
    · rw [show dictSet ((k', v') :: rest) k v = (k', v') :: dictSet rest k v by
        simp [dictSet, hk]] at h
      rw [keysOf_cons] at h
      rcases List.mem_cons.mp h with h' | h'
      · exact Or.inr (by rw [keysOf_cons, h']; exact List.mem_cons_self _ _)
      · rcases ih h' with h'' | h''
        · exact Or.inl h''
        · exact Or.inr (by rw [keysOf_cons]; exact List.mem_cons_of_mem _ h'')

theorem mem_dictSet {α : Type} (d : List (String × α)) (k : String) (v : α)
    (a : String) (r : α) (hnd : (keysOf d).Nodup) (h : (a, r) ∈ dictSet d k v) :
    (a, r) = (k, v) ∨ ((a, r) ∈ d ∧ a ≠ k) := by
  induction d with
  | nil =>
    simp only [dictSet, List.mem_singleton] at h
    exact Or.inl h
  | cons p rest ih =>
    obtain ⟨k', v'⟩ := p
    rw [keysOf_cons] at hnd
    have hnd' : (keysOf rest).Nodup := (List.nodup_cons.mp hnd).2
    have hk'notin : k' ∉ keysOf rest := (List.nodup_cons.mp hnd).1
    by_cases hk : k' = k
    · subst hk
      rw [show dictSet ((k', v') :: rest) k' v = (k', v) :: rest by simp [dictSet]] at h
      rcases List.mem_cons.mp h with h' | h'
      · exact Or.inl h'
      · refine Or.inr ⟨List.mem_cons_of_mem _ h', ?_⟩
        intro hEq
        subst hEq
        exact hk'notin ((mem_keysOf rest a).mpr ⟨r, h'⟩)
    · rw [show dictSet ((k', v') :: rest) k v = (k', v') :: dictSet rest k v by
        simp [dictSet, hk]] at h
      rcases List.mem_cons.mp h with h' | h'
      · have ha : a = k' := congrArg Prod.fst h'
        exact Or.inr ⟨List.mem_cons.mpr (Or.inl h'), ha ▸ hk⟩
      · rcases ih hnd' h' with h'' | h''
        · exact Or.inl h''
        · exact Or.inr ⟨List.mem_cons_of_mem _ h''.1, h''.2⟩

theorem dictGet_mem {α : Type} (d : List (String × α)) (k : String) (r : α)
    (h : dictGet d k = some r) : (k, r) ∈ d := by
  induction d with
  | nil => simp [dictGet] at h
  | cons p rest ih =>
    obtain ⟨k', v'⟩ := p
    by_cases hk : k' = k
    · subst hk
      rw [show dictGet ((k', v') :: rest) k' = some v' by simp [dictGet]] at h
      have : v' = r := by injection h
      exact List.mem_cons.mpr (Or.inl (by rw [this]))
    · rw [show dictGet ((k', v') :: rest) k = dictGet rest k by simp [dictGet, hk]] at h
      exact List.mem_cons_of_mem _ (ih h)

theorem dictGet_isSome_of_mem {α : Type} (d : List (String × α)) (k : String)
    (h : k ∈ keysOf d) : ∃ r, dictGet d k = some r := by
  induction d with
  | nil => simp [keysOf] at h
  | cons p rest ih =>
    obtain ⟨k', v'⟩ := p
    by_cases hk : k' = k
    · exact ⟨v', by simp [dictGet, hk]⟩
    · have hmem : k ∈ keysOf rest := by
        rw [keysOf_cons] at h
        rcases List.mem_cons.mp h with h' | h'
        · exact absurd h'.symm hk
        · exact h'
      obtain ⟨r, hr⟩ := ih hmem
      exact ⟨r, by simp [dictGet, hk, hr]⟩

/-! ## Line classification lemmas -/

theorem headerName_none (x : String) (hhdr : isHeaderLine x = false) :
    headerName x = none := by
  simp [headerName, hhdr]

theorem headersOfLines_cons_none (x : String) (ls : List String)
    (hname : headerName x = none) : headersOfLines (x :: ls) = headersOfLines ls := by
  simp [headersOfLines, List.filterMap_cons, hname]

theorem headersOfLines_cons_some (x : String) (ls : List String) (nm : String)
    (hname : headerName x = some nm) :
    headersOfLines (x :: ls) = nm :: headersOfLines ls := by
  simp [headersOfLines, List.filterMap_cons, hname]

theorem prefixFieldKeys_cons_not_header (x : String) (ls : List String)
    (hhdr : isHeaderLine x = false) (k : String) (hk : k ∈ prefixFieldKeys ls) :
    k ∈ prefixFieldKeys (x :: ls) := by
  unfold prefixFieldKeys at hk ⊢
  rw [List.takeWhile_cons, hhdr]
  simp only [Bool.not_false, if_true, List.filterMap_cons]
  cases hl : lineFieldKey x with
  | none => exact hk
  | some key => exact List.mem_cons_of_mem _ hk

theorem prefixFieldKeys_cons_self (x : String) (ls : List String)
    (hhdr : isHeaderLine x = false) (k : String) (hk : lineFieldKey x = some k) :
    k ∈ prefixFieldKeys (x :: ls) := by
  unfold prefixFieldKeys
  rw [List.takeWhile_cons, hhdr]
  simp only [Bool.not_false, if_true, List.filterMap_cons, hk]
  exact List.mem_cons_self _ _

theorem blockOfLines_cons_other (x : String) (ls : List String) (h' : String)
    (h : headerName x ≠ some h') : blockOfLines (x :: ls) h' = blockOfLines ls h' := by
  unfold blockOfLines
  rw [List.dropWhile_cons]
  simp [h]

theorem blockOfLines_cons_self (x : String) (ls : List String) (h' : String)
    (h : headerName x = some h') :
    blockOfLines (x :: ls) h' = ls.takeWhile fun raw => !isHeaderLine raw := by
  unfold blockOfLines
  rw [List.dropWhile_cons]
  simp [h]

theorem blockFieldKeys_cons_other (x : String) (ls : List String) (h' : String)
    (h : headerName x ≠ some h') : blockFieldKeys (x :: ls) h' = blockFieldKeys ls h' := by
  unfold blockFieldKeys
  rw [blockOfLines_cons_other x ls h' h]

theorem blockFieldKeys_cons_self (x : String) (ls : List String) (h' : String)
    (h : headerName x = some h') : blockFieldKeys (x :: ls) h' = prefixFieldKeys ls := by
  unfold blockFieldKeys prefixFieldKeys
  rw [blockOfLines_cons_self x ls h' h]

theorem parseOrigins_cons_skip (x : String) (ls : List String) (st : ParseState)
    (d' : List (String × List (String × String))) (hhdr : isHeaderLine x = false)
    (horig : ParseOrigins ls st d') : ParseOrigins (x :: ls) st d' := by
  have hname : headerName x = none := headerName_none x hhdr
  have hHeads : headersOfLines (x :: ls) = headersOfLines ls :=
    headersOfLines_cons_none x ls hname
  intro p hp kv hkv
  rcases horig p hp kv hkv with h | h | h | h
  · exact Or.inl h
  · exact Or.inr (Or.inl ⟨h.1, h.2.1, prefixFieldKeys_cons_not_header x ls hhdr _ h.2.2⟩)
  · exact Or.inr (Or.inr (Or.inl ⟨h.1, by rw [hHeads]; exact h.2⟩))
  · refine Or.inr (Or.inr (Or.inr ⟨by rw [hHeads]; exact h.1, h.2.1, ?_⟩))
    rw [blockFieldKeys_cons_other x ls p.1 (by simp [hname])]
    exact h.2.2

/-! ## Parser main induction -/

theorem parseFold_spec : ∀ (ls : List String) (st : ParseState),
    (keysOf st.dict ++ headersOfLines ls).Nodup →
    (∀ c, st.current = some c → c ≠ "" ∧ c ∈ keysOf st.dict) →
    keysOf (ls.foldl parseLine st).dict = keysOf st.dict ++ headersOfLines ls
      ∧ ParseOrigins ls st (ls.foldl parseLine st).dict
  | [], st, _, _ => by
    constructor
    · simp [headersOfLines]
    · intro p hp kv hkv
      refine Or.inl ⟨p.2, by simpa using hp, ?_⟩
      exact (mem_keysOf _ _).mpr ⟨kv.2, by simpa using hkv⟩
  | x :: ls, st, hnd, hcur => by
    rw [List.foldl_cons]
    by_cases hemp : cleanedLine x = ""
    · -- blank or comment-only line: skipped
      have hstep : parseLine st x = st := by
        simp only [parseLine]
        rw [if_pos hemp]
      have hhdr : isHeaderLine x = false := by
        simp [isHeaderLine, hemp]
      have hHeads := headersOfLines_cons_none x ls (headerName_none x hhdr)
      rw [hstep]
      have ih := parseFold_spec ls st (by rwa [hHeads] at hnd) hcur
      exact ⟨by rw [hHeads]; exact ih.1, parseOrigins_cons_skip x ls st _ hhdr ih.2⟩
    · by_cases hcond : ('=' ∉ (cleanedLine x).data
          ∧ startsWithChar (cleanedLine x) '{' = false
          ∧ startsWithChar (cleanedLine x) '}' = false)
      · -- header line
        have hstep : parseLine st x =
            ⟨dictSet st.dict (cleanedLine x) [("Driver", cleanedLine x)],
              some (cleanedLine x)⟩ := by
          simp only [parseLine]
          rw [if_neg hemp, if_pos hcond, if_pos hemp]
        have hhdr : isHeaderLine x = true := by
          simp only [isHeaderLine, decide_eq_true_eq]
          exact ⟨hemp, hcond⟩
        have hname : headerName x = some (cleanedLine x) := by
          simp [headerName, hhdr]
        have hHeads := headersOfLines_cons_some x ls (cleanedLine x) hname
        rw [hHeads] at hnd
        have hnotA : cleanedLine x ∉ keysOf st.dict := by
          have hsplit := List.nodup_append.mp hnd
          exact fun hmem => hsplit.2.2 hmem (List.mem_cons_self _ _)
        have hnotB : cleanedLine x ∉ headersOfLines ls := by
          have hsplit := List.nodup_append.mp hnd
          exact (List.nodup_cons.mp hsplit.2.1).1
        have hndA : (keysOf st.dict).Nodup := (List.nodup_append.mp hnd).1
        have hkeys1 : keysOf (dictSet st.dict (cleanedLine x) [("Driver", cleanedLine x)])
            = keysOf st.dict ++ [cleanedLine x] :=
          keysOf_dictSet_of_not_mem _ _ _ hnotA
        have hnd1 : (keysOf (dictSet st.dict (cleanedLine x) [("Driver", cleanedLine x)])
            ++ headersOfLines ls).Nodup := by
          rw [hkeys1, List.append_assoc, List.singleton_append]
          exact hnd
        have hcur1 : ∀ c, (some (cleanedLine x) : Option String) = some c →
            c ≠ "" ∧ c ∈ keysOf (dictSet st.dict (cleanedLine x)
              [("Driver", cleanedLine x)]) := by
          intro c hcc
          have hcx : cleanedLine x = c := Option.some.inj hcc
          subst hcx
          refine ⟨hemp, ?_⟩
          rw [hkeys1]
          exact List.mem_append.mpr (Or.inr (List.mem_cons_self _ _))
        rw [hstep]
        have ih := parseFold_spec ls
          ⟨dictSet st.dict (cleanedLine x) [("Driver", cleanedLine x)],
            some (cleanedLine x)⟩ hnd1 hcur1
        constructor
        · rw [hHeads, ih.1]
          dsimp only
          rw [hkeys1, List.append_assoc, List.singleton_append]
        · intro p hp kv hkv
          rcases ih.2 p hp kv hkv with h | h | h | h
          · obtain ⟨r₀, hr₀, hk⟩ := h
            dsimp only at hr₀
            rcases mem_dictSet st.dict (cleanedLine x) [("Driver", cleanedLine x)]
                p.1 r₀ hndA hr₀ with heq | hold
            · have hp1 : p.1 = cleanedLine x := congrArg Prod.fst heq
              have hr : r₀ = [("Driver", cleanedLine x)] := congrArg Prod.snd heq
              have hkd : kv.1 = "Driver" := by
                rw [hr] at hk
                simpa [keysOf] using hk
              refine Or.inr (Or.inr (Or.inl ⟨hkd, ?_⟩))
              rw [hHeads, hp1]
              exact List.mem_cons_self _ _
            · exact Or.inl ⟨r₀, hold.1, hk⟩
          · obtain ⟨hc, hcan, hpre⟩ := h
            have hp1 : cleanedLine x = p.1 := Option.some.inj hc
            refine Or.inr (Or.inr (Or.inr ⟨?_, hcan, ?_⟩))
            · rw [hHeads, ← hp1]
              exact List.mem_cons_self _ _
            · rw [blockFieldKeys_cons_self x ls p.1 (by rw [hname, hp1])]
              exact hpre
          · refine Or.inr (Or.inr (Or.inl ⟨h.1, ?_⟩))
            rw [hHeads]
            exact List.mem_cons_of_mem _ h.2
          · obtain ⟨hmem, hcan, hblk⟩ := h
            have hne : headerName x ≠ some p.1 := by
              rw [hname]
              intro hEq
              exact hnotB (Option.some.inj hEq ▸ hmem)
            refine Or.inr (Or.inr (Or.inr
              ⟨by rw [hHeads]; exact List.mem_cons_of_mem _ hmem, hcan, ?_⟩))
            rw [blockFieldKeys_cons_other x ls p.1 hne]
            exact hblk
      · -- a line with '=' or a brace line: never a header
        have hhdr : isHeaderLine x = false := by
          simp only [isHeaderLine, decide_eq_false_iff_not]
          intro hcontra
          exact hcond hcontra.2
        have hHeads := headersOfLines_cons_none x ls (headerName_none x hhdr)
        rw [hHeads] at hnd
        rcases hc : st.current with _ | cur
        · have hstep : parseLine st x = st := by
            simp only [parseLine]
            rw [if_neg hemp, if_neg hcond, hc]
          rw [hstep]
          have ih := parseFold_spec ls st hnd hcur
          exact ⟨by rw [hHeads]; exact ih.1, parseOrigins_cons_skip x ls st _ hhdr ih.2⟩
        · by_cases hce : cur ≠ ""
        
          case neg =>
            have hstep : parseLine st x = st := by
              simp only [parseLine]
              rw [if_neg hemp, if_neg hcond, hc]
              dsimp only
              rw [if_neg hce]
            rw [hstep]
            have ih := parseFold_spec ls st hnd hcur
            exact ⟨by rw [hHeads]; exact ih.1, parseOrigins_cons_skip x ls st _ hhdr ih.2⟩
          case pos =>
            rcases hsp : splitFirstAtEq (cleanedLine x).data with _ | ⟨kp, vp⟩
            · have hstep : parseLine st x = st := by
                simp only [parseLine]
                rw [if_neg hemp, if_neg hcond, hc]
                dsimp only
                rw [if_pos hce, hsp]
              rw [hstep]
              have ih := parseFold_spec ls st hnd hcur
              exact ⟨by rw [hHeads]; exact ih.1, parseOrigins_cons_skip x ls st _ hhdr ih.2⟩
            · by_cases hkey : pyStrip ⟨kp⟩ ∈ rcdFieldList
              case neg =>
                have hstep : parseLine st x = st := by
                  simp only [parseLine]
                  rw [if_neg hemp, if_neg hcond, hc]
                  dsimp only
                  rw [if_pos hce, hsp]
                  dsimp only
                  rw [if_neg hkey]
                rw [hstep]
                have ih := parseFold_spec ls st hnd hcur
                exact ⟨by rw [hHeads]; exact ih.1,
                  parseOrigins_cons_skip x ls st _ hhdr ih.2⟩
              case pos =>
                obtain ⟨hcne, hcmem⟩ := hcur cur hc
                have hstep : parseLine st x = ⟨dictSet st.dict cur
                    (dictSet ((dictGet st.dict cur).getD []) (pyStrip ⟨kp⟩)
                      (pyStrip (stripComment ⟨vp⟩))), st.current⟩ := by
                  simp only [parseLine]
                  rw [if_neg hemp, if_neg hcond, hc]
                  dsimp only
                  rw [if_pos hce, hsp]
                  dsimp only
                  rw [if_pos hkey]
                have hkeys1 : keysOf (dictSet st.dict cur
                    (dictSet ((dictGet st.dict cur).getD []) (pyStrip ⟨kp⟩)
                      (pyStrip (stripComment ⟨vp⟩)))) = keysOf st.dict :=
                  keysOf_dictSet_of_mem _ _ _ hcmem
                have hnd1 : (keysOf (dictSet st.dict cur
                    (dictSet ((dictGet st.dict cur).getD []) (pyStrip ⟨kp⟩)
                      (pyStrip (stripComment ⟨vp⟩)))) ++ headersOfLines ls).Nodup := by
                  rw [hkeys1]
                  exact hnd
                have hcur1 : ∀ c, st.current = some c →
                    c ≠ "" ∧ c ∈ keysOf (dictSet st.dict cur
                      (dictSet ((dictGet st.dict cur).getD []) (pyStrip ⟨kp⟩)
                        (pyStrip (stripComment ⟨vp⟩)))) := by
                  intro c hcc
                  rw [hc] at hcc
                  have : cur = c := Option.some.inj hcc
                  subst this
                  exact ⟨hcne, by rw [hkeys1]; exact hcmem⟩
                rw [hstep]
                have ih := parseFold_spec ls ⟨dictSet st.dict cur
                    (dictSet ((dictGet st.dict cur).getD []) (pyStrip ⟨kp⟩)
                      (pyStrip (stripComment ⟨vp⟩))), st.current⟩ hnd1 hcur1
                have hndA : (keysOf st.dict).Nodup := (List.nodup_append.mp hnd).1
                constructor
                · rw [hHeads, ih.1]
                  dsimp only
                  rw [hkeys1]
                · intro p hp kv hkv
                  rcases ih.2 p hp kv hkv with h | h | h | h
                  · obtain ⟨r₀, hr₀, hk⟩ := h
                    dsimp only at hr₀
                    rcases mem_dictSet st.dict cur _ p.1 r₀ hndA hr₀ with heq | hold
                    · have hp1 : p.1 = cur := congrArg Prod.fst heq
                      have hr : r₀ = dictSet ((dictGet st.dict cur).getD [])
                          (pyStrip ⟨kp⟩) (pyStrip (stripComment ⟨vp⟩)) :=
                        congrArg Prod.snd heq
                      rw [hr] at hk
                      rcases mem_keysOf_dictSet _ _ _ _ hk with hkk | hkold
                      · refine Or.inr (Or.inl ⟨by rw [hc, hp1], ?_, ?_⟩)
                        · rw [hkk]; exact hkey
                        · refine prefixFieldKeys_cons_self x ls hhdr kv.1 ?_
                          rw [hkk]
                          simp [lineFieldKey, hsp]
                      · obtain ⟨r, hrget⟩ := dictGet_isSome_of_mem st.dict cur hcmem
                        rw [hrget] at hkold
                        refine Or.inl ⟨r, ?_, by simpa using hkold⟩
                        rw [hp1]
                        exact dictGet_mem _ _ _ hrget
                    · exact Or.inl ⟨r₀, hold.1, hk⟩
                  · exact Or.inr (Or.inl
                      ⟨h.1, h.2.1, prefixFieldKeys_cons_not_header x ls hhdr _ h.2.2⟩)
                  · refine Or.inr (Or.inr (Or.inl ⟨h.1, ?_⟩))
                    rw [hHeads]
                    exact h.2
                  · refine Or.inr (Or.inr (Or.inr
                      ⟨by rw [hHeads]; exact h.1, h.2.1, ?_⟩))
                    rw [blockFieldKeys_cons_other x ls p.1
                      (by simp [headerName_none x hhdr])]
                    exact h.2.2

/-- C3: for any input text whose header lines are distinct, the fast parser
returns exactly those headers as keys, in file order; and every key of a
parsed record other than the synthesized `"Driver"` entry is a canonical
field key that appears verbatim as a field line inside that header's block.
Keys outside the canonical field set are silently dropped. -/
theorem parser_block_keys_c3 (content : String)
    (hnd : (headerLinesOf content).Nodup) :
    keysOf (parseSingleRcdFast content) = headerLinesOf content
    ∧ ∀ p ∈ parseSingleRcdFast content, ∀ kv ∈ p.2,
        kv.1 = "Driver"
        ∨ (kv.1 ∈ rcdFieldList ∧ kv.1 ∈ blockFieldKeys (pyLines content) p.1) := by
  by_cases hc : content = ""
  · subst hc
    exact ⟨by decide, by decide⟩
  · have hmain := parseFold_spec (pyLines content) ⟨[], none⟩
      (by simpa [keysOf] using hnd) (by intro c hc'; simp at hc')
    have hpsf : parseSingleRcdFast content
        = ((pyLines content).foldl parseLine ⟨[], none⟩).dict := by
      simp [parseSingleRcdFast, hc]
    constructor
    · rw [hpsf, hmain.1]
      simp [keysOf, headerLinesOf]
    · intro p hp kv hkv
      rw [hpsf] at hp
      rcases hmain.2 p hp kv hkv with h | h | h | h
      · obtain ⟨r₀, hr₀, _⟩ := h
        simp at hr₀
      · have hcc := h.1
        simp at hcc
      · exact Or.inl h.1
      · exact Or.inr ⟨h.2.1, h.2.2⟩

/-- C3 witness: the specification's end-to-end example file has one distinct
header and parses to exactly that key. -/
theorem parser_block_keys_c3_witness :
    (headerLinesOf "Jane Doe\n\x7b\nNationality=USA\nConsistency=60\n\x7d\n").Nodup
    ∧ keysOf (parseSingleRcdFast "Jane Doe\n\x7b\nNationality=USA\nConsistency=60\n\x7d\n")
        = headerLinesOf "Jane Doe\n\x7b\nNationality=USA\nConsistency=60\n\x7d\n" :=
  ⟨by decide, (parser_block_keys_c3 _ (by decide)).1⟩

/-! ## String and line-splitting lemmas -/

theorem string_eq_of_data (a b : String) (h : a.data = b.data) : a = b := by
  cases a
  cases b
  exact congrArg String.mk h

theorem strData_append (a b : String) : (a ++ b).data = a.data ++ b.data := by
  cases a
  cases b
  rfl

theorem getLast?_cons_ne_nil (x : Char) (l : List Char) (h : l ≠ []) :
    (x :: l).getLast? = l.getLast? := by
  cases l with
  | nil => exact absurd rfl h
  | cons b l => exact List.getLast?_cons_cons

theorem clGetLast_append : ∀ (l1 l2 : List Char), l2 ≠ [] →
    (l1 ++ l2).getLast? = l2.getLast?
  | [], _, _ => rfl
  | a :: l1, l2, h => by
    have h1 : l1 ++ l2 ≠ [] := fun hEq => h (List.append_eq_nil.mp hEq).2
    rw [List.cons_append, getLast?_cons_ne_nil a _ h1]
    exact clGetLast_append l1 l2 h

theorem mem_of_getLast?_eq (l : List Char) (c : Char) (h : l.getLast? = some c) :
    c ∈ l := by
  have hx : c ∈ l.getLast? := Option.mem_def.mpr h
  rcases List.mem_getLast?_eq_getLast hx with ⟨hne, hEq⟩
  rw [hEq]
  exact List.getLast_mem hne

theorem splitLines_ne_nil (l : List Char) : splitLines l ≠ [] := by
  cases l with
  | nil => simp [splitLines]
  | cons c rest =>
    simp only [splitLines]
    split
    · simp
    · split <;> simp

theorem splitLines_decomp : ∀ l : List Char,
    clJoinNl (splitLines l).dropLast ++ (splitLines l).getLastD [] = l
  | [] => rfl
  | c :: rest => by
    have hne := splitLines_ne_nil rest
    rcases hps : splitLines rest with _ | ⟨p, ps⟩
    · exact absurd hps hne
    have ihr := splitLines_decomp rest
    rw [hps] at ihr
    by_cases hc : c = '\n'
    · subst hc
      rw [show splitLines ('\n' :: rest) = [] :: p :: ps by simp [splitLines, hps]]
      rw [List.dropLast_cons₂]
      simp only [clJoinNl, List.nil_append, List.getLastD_cons]
      rw [List.cons_append]
      congr 1
      rw [List.getLastD_cons] at ihr
      exact ihr
    · rw [show splitLines (c :: rest) = (c :: p) :: ps by simp [splitLines, hc, hps]]
      cases ps with
      | nil =>
        have hp : p = rest := by
          simpa [clJoinNl, List.getLastD_cons] using ihr
        simp [clJoinNl, List.getLastD_cons, hp]
      | cons q ps' =>
        rw [List.dropLast_cons₂]
        simp only [clJoinNl, List.getLastD_cons]
        rw [List.dropLast_cons₂] at ihr
        simp only [clJoinNl, List.getLastD_cons] at ihr
        rw [List.cons_append, List.cons_append]
        congr 1

theorem splitLines_no_nl : ∀ (l : List Char) (p : List Char),
    p ∈ splitLines l → '\n' ∉ p
  | [], p, hp => by
    simp [splitLines] at hp
    simp [hp]
  | c :: rest, p, hp => by
    have hne := splitLines_ne_nil rest
    rcases hps : splitLines rest with _ | ⟨q, ps⟩
    · exact absurd hps hne
    by_cases hc : c = '\n'
    · subst hc
      rw [show splitLines ('\n' :: rest) = [] :: q :: ps by simp [splitLines, hps]] at hp
      rcases List.mem_cons.mp hp with h' | h'
      · simp [h']
      · exact splitLines_no_nl rest p (by rw [hps]; exact h')
    · rw [show splitLines (c :: rest) = (c :: q) :: ps by simp [splitLines, hc, hps]] at hp
      rcases List.mem_cons.mp hp with h' | h'
      · subst h'
        intro hmem
        rcases List.mem_cons.mp hmem with h'' | h''
        · exact hc h''.symm
        · exact splitLines_no_nl rest q (by rw [hps]; exact List.mem_cons_self _ _) h''
      · exact splitLines_no_nl rest p (by rw [hps]; exact List.mem_cons_of_mem _ h')

theorem getLastD_mem : ∀ (ps : List (List Char)), ps ≠ [] →
    ps.getLastD [] ∈ ps
  | [], h => absurd rfl h
  | [p], _ => by simp [List.getLastD_cons]
  | p :: q :: ps, _ => by
    rw [List.getLastD_cons]
    exact List.mem_cons_of_mem _ (getLastD_mem (q :: ps) (by simp))

theorem splitLines_getLast_of_nl (l : List Char) (h : l.getLast? = some '\n') :
    (splitLines l).getLastD [] = [] := by
  by_contra hne
  have hmem : (splitLines l).getLastD [] ∈ splitLines l :=
    getLastD_mem _ (splitLines_ne_nil l)
  have hnonl : '\n' ∉ (splitLines l).getLastD [] := splitLines_no_nl l _ hmem
  have hlast : l.getLast? = ((splitLines l).getLastD []).getLast? := by
    conv_lhs => rw [← splitLines_decomp l]
    exact clGetLast_append _ _ hne
  rw [h] at hlast
  exact hnonl (mem_of_getLast?_eq _ _ hlast.symm)

theorem concat_map_mk (ps : List (List Char)) :
    concatLinesNl (ps.map fun l => (⟨l⟩ : String)) = ⟨clJoinNl ps⟩ := by
  induction ps with
  | nil => rfl
  | cons l ps ih =>
    simp only [List.map_cons, concatLinesNl, ih]
    refine string_eq_of_data _ _ ?_
    rw [strData_append, strData_append]
    rw [show ("\n" : String).data = ['\n'] by decide]
    rw [List.append_assoc]
    rfl

theorem clJoin_stripped (l : List Char) (h : l = [] ∨ l.getLast? = some '\n') :
    clJoinNl (clStrippedLines l) = l := by
  rcases h with h | h
  · subst h
    rfl
  · have hlast := splitLines_getLast_of_nl l h
    unfold clStrippedLines
    rw [if_pos hlast]
    have hdec := splitLines_decomp l
    rw [hlast, List.append_nil] at hdec
    exact hdec

theorem readStripped_concat (content : String)
    (h : content = "" ∨ content.data.getLast? = some '\n') :
    concatLinesNl (readStrippedLines content) = content := by
  unfold readStrippedLines
  rw [concat_map_mk]
  refine string_eq_of_data _ _ ?_
  have h' : content.data = [] ∨ content.data.getLast? = some '\n' := by
    rcases h with h | h
    · exact Or.inl (by subst h; decide)
    · exact Or.inr h
  exact clJoin_stripped content.data h'

/-! ## Line updater lemmas -/

theorem normalForm_fix (driverData : List (String × String)) (fieldnames : List String)
    (line : String) (h : normalFormLine driverData fieldnames line = true) :
    updateLineIfNeeded line driverData fieldnames = line := by
  unfold normalFormLine at h
  unfold updateLineIfNeeded
  rcases hsp : splitFirstAtEq line.data with _ | ⟨kp, rest⟩
  · rfl
  · rw [hsp] at h
    dsimp only at h ⊢
    by_cases hk : pyStrip ⟨kp⟩ ∈ fieldnames
    · rw [if_pos hk] at h ⊢
      rcases hg : dictGet driverData (pyStrip ⟨kp⟩) with _ | v
      · simp
      · rw [hg] at h
        dsimp only at h
        simp only [Option.getD_some]
        by_cases hv : v = ""
        · subst hv
          simp
        · rw [if_neg hv] at h
          rw [if_pos hv]
          exact (of_decide_eq_true h).symm
    · rw [if_neg hk]

theorem updLineStep_out_id (driverName : String) (driverData : List (String × String))
    (fieldnames : List String) (st : UpdState) (x : String)
    (hx : updateLineIfNeeded x driverData fieldnames = x) :
    (updLineStep driverName driverData fieldnames st x).out = st.out ++ [x] := by
  simp only [updLineStep]
  by_cases h1 : st.inTarget = false ∧ cleanedLine x = driverName
  · rw [if_pos h1]
    dsimp only
    split
    · split
      · rw [hx]
      · rfl
    · rfl
  · rw [if_neg h1]
    split
    · split
      · rw [hx]
      · rfl
    · rfl

theorem updFold_out_id (driverName : String) (driverData : List (String × String))
    (fieldnames : List String) : ∀ (ls : List String) (st : UpdState),
    (∀ l ∈ ls, updateLineIfNeeded l driverData fieldnames = l) →
    (ls.foldl (updLineStep driverName driverData fieldnames) st).out = st.out ++ ls
  | [], st, _ => by simp
  | x :: ls, st, h => by
    rw [List.foldl_cons]
    have hstep := updLineStep_out_id driverName driverData fieldnames st x
      (h x (List.mem_cons_self _ _))
    rw [updFold_out_id driverName driverData fieldnames ls _
      (fun l hl => h l (List.mem_cons_of_mem _ hl))]
    rw [hstep, List.append_assoc]
    rfl

/-! ## Updater claims C4, C5, C7, C8 -/

/-- C4 counterexample: the whitespace between the old value and the `//` is
part of the replaced value segment, so the claimed output
`"  Consistency=75 // base value"` is not produced. -/
theorem updater_comment_c4_counterexample :
    updateLineIfNeeded "  Consistency=50 // base value" [("Consistency", "75")]
      ["Consistency"] ≠ "  Consistency=75 // base value" := by decide

/-- C4 amended: the updater preserves the leading indentation and the
comment from `//` onward verbatim, but the replaced value segment extends
up to the `//`, so any whitespace before the comment is dropped: the
example line becomes `"  Consistency=75// base value"`.  In general an
eligible field line is rewritten to indentation, trimmed key, `'='`, the
new value and the `//`-suffix of the old value part. -/
theorem updater_comment_c4_amended :
    updateLineIfNeeded "  Consistency=50 // base value" [("Consistency", "75")]
      ["Consistency"] = "  Consistency=75// base value"
    ∧ ∀ (line : String) (driverData : List (String × String))
        (fieldnames : List String) (kp rest : List Char) (v : String),
        splitFirstAtEq line.data = some (kp, rest) →
        pyStrip ⟨kp⟩ ∈ fieldnames →
        dictGet driverData (pyStrip ⟨kp⟩) = some v →
        v ≠ "" →
        updateLineIfNeeded line driverData fieldnames
          = ⟨kp.takeWhile isWsChar⟩ ++ pyStrip ⟨kp⟩ ++ "=" ++ v
            ++ ⟨commentSuffixCl rest⟩ := by
  refine ⟨by decide, ?_⟩
  intro line driverData fieldnames kp rest v hsp hk hget hv
  unfold updateLineIfNeeded
  rw [hsp]
  dsimp only
  rw [if_pos hk, hget]
  simp only [Option.getD_some]
  rw [if_pos hv]

/-- C4 witness: the amended rewrite shape evaluated on the example line. -/
theorem updater_comment_c4_witness :
    updateLineIfNeeded "  Consistency=50 // base value" [("Consistency", "75")]
      ["Consistency"]
      = ⟨(("  Consistency" : String).data).takeWhile isWsChar⟩
        ++ pyStrip ⟨("  Consistency" : String).data⟩ ++ "=" ++ "75"
        ++ ⟨commentSuffixCl ("50 // base value" : String).data⟩ :=
  updater_comment_c4_amended.2 "  Consistency=50 // base value" [("Consistency", "75")]
    ["Consistency"] ("  Consistency" : String).data ("50 // base value" : String).data
    "75" (by decide) (by decide) (by decide) (by decide)

/-- C5 counterexample: rewriting a file with a plan equal to the stored
values is not byte-identical in general: the space before a `//`-comment on
an eligible field line is lost. -/
theorem updater_idempotence_c5_counterexample :
    updateSingleRcd "Jane Doe\n\x7b\nConsistency=50 // c\n\x7d\n" "Jane Doe"
      [("Consistency", "50")] ["Consistency"]
    ≠ "Jane Doe\n\x7b\nConsistency=50 // c\n\x7d\n" := by decide

/-- C5 amended: the rewrite is byte-identical provided the file is empty or
ends with a newline and every field line targeted by the plan is already in
the updater's output shape: the planned value flush against `'='`, with any
`//`-comment immediately after the value.  (A plan whose values equal the
stored values satisfies this exactly when the file carries no extra
whitespace around the value segment.) -/
theorem updater_idempotent_c5_amended (content driverName : String)
    (driverData : List (String × String)) (fieldnames : List String)
    (hnl : content = "" ∨ content.data.getLast? = some '\n')
    (hnf : ∀ line ∈ readStrippedLines content,
      normalFormLine driverData fieldnames line = true) :
    updateSingleRcd content driverName driverData fieldnames = content := by
  unfold updateSingleRcd updOutLines
  rw [updFold_out_id driverName driverData fieldnames (readStrippedLines content)
    initUpdState (fun l hl => normalForm_fix driverData fieldnames l (hnf l hl))]
  rw [show initUpdState.out = [] from rfl, List.nil_append]
  exact readStripped_concat content hnl

/-- C5 witness: a normal-form file rewritten with its own values is
unchanged. -/
theorem updater_idempotent_c5_witness :
    updateSingleRcd "Jane Doe\n\x7b\nConsistency=50// c\n\x7d\n" "Jane Doe"
      [("Consistency", "50")] ["Consistency"]
    = "Jane Doe\n\x7b\nConsistency=50// c\n\x7d\n" :=
  updater_idempotent_c5_amended _ _ _ _ (Or.inr (by decide)) (by decide)

/-- C7 counterexample: a whitespace-only new value is not empty under the
code's `str(new_value) != ''` test, so it is written: the line changes. -/
theorem updater_empty_value_c7_counterexample :
    updateLineIfNeeded "  Consistency=50" [("Consistency", " ")] ["Consistency"]
    ≠ "  Consistency=50" := by decide

/-- C7 amended: only a new value equal to the empty string is never written
(the field line is returned unchanged); a whitespace-only but non-empty
value is written, e.g. `"  Consistency=50"` with planned value `" "`
becomes `"  Consistency= "`. -/
theorem updater_empty_value_c7_amended :
    (∀ (line : String) (driverData : List (String × String))
        (fieldnames : List String) (kp rest : List Char),
      splitFirstAtEq line.data = some (kp, rest) →
      (dictGet driverData (pyStrip ⟨kp⟩)).getD "" = "" →
      updateLineIfNeeded line driverData fieldnames = line)
    ∧ updateLineIfNeeded "  Consistency=50" [("Consistency", " ")] ["Consistency"]
      = "  Consistency= " := by
  refine ⟨?_, by decide⟩
  intro line driverData fieldnames kp rest hsp hempty
  unfold updateLineIfNeeded
  rw [hsp]
  dsimp only
  by_cases hk : pyStrip ⟨kp⟩ ∈ fieldnames
  · rw [if_pos hk, hempty]
    simp
  · rw [if_neg hk]

/-- C7 witness: an exactly-empty planned value leaves the line unchanged. -/
theorem updater_empty_value_c7_witness :
    updateLineIfNeeded "  Consistency=50" [] ["Consistency"] = "  Consistency=50" :=
  updater_empty_value_c7_amended.1 "  Consistency=50" [] ["Consistency"]
    ("  Consistency" : String).data ("50" : String).data (by decide) (by decide)

/-- C8: the backup step's outcome is discarded by `update_rcd_files` and all
its exceptions are caught inside `_backup_if_needed`, so the subsequent
mutation of the file is identical whatever the backup oracle reports, and
it equals the plain `_update_single_rcd` rewrite (the same one a successful
backup is followed by); the driver is still counted a success. -/
theorem updater_backup_nonblocking_c8 :
    ∀ (backupPath relPath relPath' : Option String) (ae co ae' co' : Bool)
      (content driverName : String) (driverData : List (String × String))
      (validFieldnames : List String),
      (processFoundDriver backupPath relPath ae co content driverName driverData
          validFieldnames).newContent
        = (processFoundDriver backupPath relPath' ae' co' content driverName driverData
            validFieldnames).newContent
      ∧ (processFoundDriver backupPath relPath ae co content driverName driverData
          validFieldnames).newContent
        = updateSingleRcd content driverName driverData validFieldnames
      ∧ (processFoundDriver backupPath relPath ae co content driverName driverData
          validFieldnames).success = true := by
  intro backupPath relPath relPath' ae co ae' co' content driverName driverData
    validFieldnames
  exact ⟨rfl, rfl, rfl⟩

/-! ## Output-shape lemmas for C10 -/

theorem updLineStep_out_append (driverName : String) (driverData : List (String × String))
    (fieldnames : List String) (st : UpdState) (x : String) :
    ∃ nl, (updLineStep driverName driverData fieldnames st x).out = st.out ++ [nl] := by
  simp only [updLineStep]
  by_cases h1 : st.inTarget = false ∧ cleanedLine x = driverName
  · rw [if_pos h1]
    dsimp only
    split
    · exact ⟨_, rfl⟩
    · exact ⟨_, rfl⟩
  · rw [if_neg h1]
    split
    · exact ⟨_, rfl⟩
    · exact ⟨_, rfl⟩

theorem updFold_out_length (driverName : String) (driverData : List (String × String))
    (fieldnames : List String) : ∀ (ls : List String) (st : UpdState),
    ((ls.foldl (updLineStep driverName driverData fieldnames) st).out).length
      = st.out.length + ls.length
  | [], _ => by simp
  | x :: ls, st => by
    rw [List.foldl_cons]
    obtain ⟨nl, hnl⟩ := updLineStep_out_append driverName driverData fieldnames st x
    rw [updFold_out_length driverName driverData fieldnames ls _, hnl]
    simp only [List.length_append, List.length_cons, List.length_nil]
    omega

theorem clStrippedLines_ne_nil (l : List Char) (h : l ≠ []) :
    clStrippedLines l ≠ [] := by
  simp only [clStrippedLines]
  rcases hps : splitLines l with _ | ⟨p, ps⟩
  · exact absurd hps (splitLines_ne_nil l)
  · rcases ps with _ | ⟨q, ps'⟩
    · by_cases hp : p = ([] : List Char)
      · exfalso
        have hdec := splitLines_decomp l
        rw [hps, hp] at hdec
        simp only [List.dropLast_single, List.getLastD_cons, List.getLastD_nil] at hdec
        rw [show clJoinNl [] = ([] : List Char) from rfl, List.nil_append] at hdec
        exact h hdec.symm
      · rw [if_neg (by simp only [List.getLastD_cons, List.getLastD_nil]; exact hp)]
        simp
    · split
      · rw [List.dropLast_cons₂]
        simp
      · simp

theorem readStrippedLines_ne_nil (content : String) (h : content ≠ "") :
    readStrippedLines content ≠ [] := by
  unfold readStrippedLines
  intro hEq
  have hcl := List.map_eq_nil_iff.mp hEq
  have hd : content.data ≠ [] := by
    intro hd
    exact h (string_eq_of_data _ _ (by rw [hd]))
  exact clStrippedLines_ne_nil content.data hd hcl

theorem concatLinesNl_ne_empty (ls : List String) (h : ls ≠ []) :
    concatLinesNl ls ≠ "" := by
  rcases ls with _ | ⟨l, ls⟩
  · exact absurd rfl h
  · intro hEq
    have hdata := congrArg String.data hEq
    rw [show concatLinesNl (l :: ls) = l ++ "\n" ++ concatLinesNl ls from rfl] at hdata
    rw [strData_append, strData_append] at hdata
    rw [show ("\n" : String).data = ['\n'] by decide] at hdata
    rw [show ("" : String).data = [] by decide] at hdata
    rcases List.append_eq_nil.mp hdata with ⟨h1, _⟩
    rcases List.append_eq_nil.mp h1 with ⟨_, h3⟩
    simp at h3

theorem concatLinesNl_last : ∀ ls : List String, ls ≠ [] →
    (concatLinesNl ls).data.getLast? = some '\n'
  | [], h => absurd rfl h
  | l :: ls, _ => by
    rw [show concatLinesNl (l :: ls) = l ++ "\n" ++ concatLinesNl ls from rfl]
    rw [strData_append, strData_append]
    rw [show ("\n" : String).data = ['\n'] by decide]
    rcases hls : ls with _ | ⟨q, ls'⟩
    · rw [show concatLinesNl ([] : List String) = "" from rfl]
      rw [show ("" : String).data = [] by decide, List.append_nil]
      exact List.getLast?_concat _
    · have hne : (concatLinesNl (q :: ls')).data ≠ [] := by
        intro hEq
        exact concatLinesNl_ne_empty (q :: ls') (by simp)
          (string_eq_of_data _ _ (by rw [hEq]))
      rw [List.append_assoc]
      rw [clGetLast_append l.data _ (by simp)]
      rw [show ['\n'] ++ (concatLinesNl (q :: ls')).data
        = '\n' :: (concatLinesNl (q :: ls')).data from rfl]
      rw [getLast?_cons_ne_nil _ _ hne]
      exact concatLinesNl_last (q :: ls') (by simp)

/-! ## UTF-8 lemmas for C10 -/

theorem char_toNat_valid (c : Char) :
    c.toNat < 0xD800 ∨ (0xE000 ≤ c.toNat ∧ c.toNat < 0x110000) := by
  have h : c.val.toNat.isValidChar := c.valid
  unfold Nat.isValidChar at h
  have hT : c.toNat = c.val.toNat := rfl
  rcases h with h | ⟨h1, h2⟩
  · exact Or.inl (by rw [hT]; exact h)
  · exact Or.inr ⟨by rw [hT]; omega, by rw [hT]; exact h2⟩

theorem utf8Valid_cons (b : Nat) (rest : List Nat) :
    utf8Valid (b :: rest) =
      (if b < 0x80 then utf8Valid rest
      else if 0xC2 ≤ b ∧ b ≤ 0xDF then
        match rest with
        | [] => false
        | b2 :: rest2 => if isContByte b2 = true then utf8Valid rest2 else false
      else if 0xE0 ≤ b ∧ b ≤ 0xEF then
        match rest with
        | b2 :: b3 :: rest3 =>
          if validSecondByte b b2 = true ∧ isContByte b3 = true then utf8Valid rest3
          else false
        | _ => false
      else if 0xF0 ≤ b ∧ b ≤ 0xF4 then
        match rest with
        | b2 :: b3 :: b4 :: rest4 =>
          if validSecondByte b b2 = true ∧ isContByte b3 = true ∧ isContByte b4 = true then
            utf8Valid rest4
          else false
        | _ => false
      else false) := by
  cases rest with
  | nil => rfl
  | cons b2 rest2 =>
    cases rest2 with
    | nil => rfl
    | cons b3 rest3 =>
      cases rest3 with
      | nil => rfl
      | cons b4 rest4 => rfl

theorem utf8Valid_encodeChar (c : Char) (rest : List Nat) :
    utf8Valid (utf8EncodeChar c ++ rest) = utf8Valid rest := by
  have hval := char_toNat_valid c
  by_cases h1 : c.toNat < 0x80
  · simp only [utf8EncodeChar, if_pos h1, List.cons_append, List.nil_append]
    rw [utf8Valid_cons, if_pos h1]
  · by_cases h2 : c.toNat < 0x800
    · simp only [utf8EncodeChar, if_neg h1, if_pos h2, List.cons_append, List.nil_append]
      rw [utf8Valid_cons, if_neg (by omega), if_pos (by omega)]
      dsimp only
      rw [if_pos (by simp only [isContByte, decide_eq_true_eq]; omega)]
    · by_cases h3 : c.toNat < 0x10000
      · simp only [utf8EncodeChar, if_neg h1, if_neg h2, if_pos h3, List.cons_append,
          List.nil_append]
        rw [utf8Valid_cons, if_neg (by omega), if_neg (by omega), if_pos (by omega)]
        dsimp only
        have hcont3 : isContByte (0x80 + c.toNat % 0x40) = true := by
          simp only [isContByte, decide_eq_true_eq]
          omega
        have hvsb : validSecondByte (0xE0 + c.toNat / 0x1000)
            (0x80 + c.toNat / 0x40 % 0x40) = true := by
          by_cases hn1 : c.toNat < 0x1000
          · simp only [validSecondByte]
            rw [if_pos (by omega : 0xE0 + c.toNat / 0x1000 = 0xE0)]
            simp only [decide_eq_true_eq]
            omega
          · by_cases hn2 : 0xD000 ≤ c.toNat ∧ c.toNat < 0xE000
            · have hsur : c.toNat < 0xD800 := by
                rcases hval with h | h <;> omega
              simp only [validSecondByte]
              rw [if_neg (by omega), if_pos (by omega : 0xE0 + c.toNat / 0x1000 = 0xED)]
              simp only [decide_eq_true_eq]
              omega
            · simp only [validSecondByte]
              rw [if_neg (by omega), if_neg (by omega), if_neg (by omega),
                if_neg (by omega)]
              simp only [isContByte, decide_eq_true_eq]
              omega
        rw [if_pos ⟨hvsb, hcont3⟩]
      · have hlt : c.toNat < 0x110000 := by
          rcases hval with h | h <;> omega
        simp only [utf8EncodeChar, if_neg h1, if_neg h2, if_neg h3, List.cons_append,
          List.nil_append]
        rw [utf8Valid_cons, if_neg (by omega), if_neg (by omega), if_neg (by omega),
          if_pos (by omega)]
        dsimp only
        have hcont3 : isContByte (0x80 + c.toNat / 0x40 % 0x40) = true := by
          simp only [isContByte, decide_eq_true_eq]
          omega
        have hcont4 : isContByte (0x80 + c.toNat % 0x40) = true := by
          simp only [isContByte, decide_eq_true_eq]
          omega
        have hvsb : validSecondByte (0xF0 + c.toNat / 0x40000)
            (0x80 + c.toNat / 0x1000 % 0x40) = true := by
          by_cases hn1 : c.toNat < 0x40000
          · simp only [validSecondByte]
            rw [if_neg (by omega), if_neg (by omega),
              if_pos (by omega : 0xF0 + c.toNat / 0x40000 = 0xF0)]
            simp only [decide_eq_true_eq]
            omega
          · by_cases hn4 : 0x100000 ≤ c.toNat
            · simp only [validSecondByte]
              rw [if_neg (by omega), if_neg (by omega), if_neg (by omega),
                if_pos (by omega : 0xF0 + c.toNat / 0x40000 = 0xF4)]
              simp only [decide_eq_true_eq]
              omega
            · simp only [validSecondByte]
              rw [if_neg (by omega), if_neg (by omega), if_neg (by omega),
                if_neg (by omega)]
              simp only [isContByte, decide_eq_true_eq]
              omega
        rw [if_pos ⟨hvsb, hcont3, hcont4⟩]

theorem utf8Valid_encode_list : ∀ cs : List Char,
    utf8Valid ((cs.map utf8EncodeChar).flatten) = true
  | [] => rfl
  | c :: cs => by
    rw [List.map_cons, List.flatten_cons, utf8Valid_encodeChar]
    exact utf8Valid_encode_list cs

theorem utf8Valid_encode (s : String) : utf8Valid (utf8Encode s) = true :=
  utf8Valid_encode_list s.data

/-! ## Claim C10 -/

/-- C10: the updater writes every output line, including the last, with a
trailing newline (its output is the newline-joined rewritten line list, and
a non-empty output ends in a newline); consequently a non-empty file whose
last line lacks a trailing newline is changed for every plan, including one
that edits nothing; and the rewritten bytes are always valid UTF-8 (the
text was decoded with undecodable bytes ignored and re-encoded), so a file
whose bytes are not valid UTF-8 is changed on disk as well. -/
theorem updater_newline_utf8_c10 :
    (∀ (content driverName : String) (driverData : List (String × String))
        (fieldnames : List String),
      updateSingleRcd content driverName driverData fieldnames
          = concatLinesNl (updOutLines content driverName driverData fieldnames)
        ∧ (updateSingleRcd content driverName driverData fieldnames = ""
            ∨ (updateSingleRcd content driverName driverData fieldnames).data.getLast?
                = some '\n'))
    ∧ (∀ (content driverName : String) (driverData : List (String × String))
        (fieldnames : List String),
        content ≠ "" → content.data.getLast? ≠ some '\n' →
        updateSingleRcd content driverName driverData fieldnames ≠ content)
    ∧ ∀ (bytes : List Nat) (driverName : String)
        (driverData : List (String × String)) (fieldnames : List String),
        utf8Valid bytes = false →
        updateSingleRcdBytes bytes driverName driverData fieldnames ≠ bytes := by
  refine ⟨?_, ?_, ?_⟩
  · intro content driverName driverData fieldnames
    refine ⟨rfl, ?_⟩
    rcases hout : updOutLines content driverName driverData fieldnames with _ | ⟨l, ls⟩
    · exact Or.inl (by unfold updateSingleRcd; rw [hout]; rfl)
    · refine Or.inr ?_
      unfold updateSingleRcd
      rw [hout]
      exact concatLinesNl_last (l :: ls) (by simp)
  · intro content driverName driverData fieldnames hne hnl hEq
    have hlen : (updOutLines content driverName driverData fieldnames).length
        = (readStrippedLines content).length := by
      unfold updOutLines
      rw [updFold_out_length]
      simp [initUpdState]
    have hlines := readStrippedLines_ne_nil content hne
    have hout : updOutLines content driverName driverData fieldnames ≠ [] := by
      intro h0
      rw [h0] at hlen
      exact hlines (List.length_eq_zero.mp hlen.symm)
    have hlast : (updateSingleRcd content driverName driverData fieldnames).data.getLast?
        = some '\n' := by
      unfold updateSingleRcd
      exact concatLinesNl_last _ hout
    rw [hEq] at hlast
    exact hnl hlast
  · intro bytes driverName driverData fieldnames hinv hEq
    have hv : utf8Valid (updateSingleRcdBytes bytes driverName driverData fieldnames)
        = true := utf8Valid_encode _
    rw [hEq, hinv] at hv
    exact Bool.noConfusion hv

/-- C10 witness: a stray invalid byte and a missing final newline each force
a change on disk. -/
theorem updater_newline_utf8_c10_witness :
    updateSingleRcdBytes [0x41, 0xFF, 0x0A] "X" [] [] ≠ [0x41, 0xFF, 0x0A]
    ∧ updateSingleRcd "A" "X" [] [] ≠ "A" :=
  ⟨updater_newline_utf8_c10.2.2 [0x41, 0xFF, 0x0A] "X" [] [] (by decide),
   updater_newline_utf8_c10.2.1 "A" "X" [] [] (by decide) (by decide)⟩
